import Mathlib

/-!
Verification of the moenster glob-style string matcher.

The matcher is a single recursive function over byte slices
(stringmatch_bytes in src/src/lib.rs).  We embed it shallowly: bytes are
natural numbers (the u8 values), slices are lists, and the result type is
Option Bool where none models a Rust panic (an out-of-bounds index) and
some b models a normal boolean return.

The Rust function is a while loop that mutates two slice views.  Each loop
iteration consumes at least one pattern byte, so we model the loop as
well-founded recursion on the pattern:
  - stringmatch_bytes models a call of the Rust function (loop entry);
  - matchStep models the shared end-of-iteration step (lines 145-155:
    advance past the token, handle an exhausted subject, re-enter the loop);
  - starLoop models the backtracking loop inside the star branch
    (lines 47-52);
  - bracketScan models the bracket-class member loop (lines 68-111).
-/

namespace Moenster

/-- The Case enum of the source (case sensitivity mode). -/
inductive Case where
  | Sensitive
  | Insensitive
  deriving DecidableEq, Repr

/-- u8::to_ascii_lowercase on byte values: uppercase ASCII letters are
shifted down into lowercase, everything else is unchanged. -/
def toAsciiLowercase (b : Nat) : Nat :=
  if 65 ≤ b ∧ b ≤ 90 then b + 32 else b

/-- Byte comparison of the main literal branch (lines 130-141): exact
equality when sensitive, equality after folding both bytes when
insensitive. -/
def byteMatches (c : Case) (p0 s0 : Nat) : Bool :=
  match c with
  | .Sensitive => decide (p0 = s0)
  | .Insensitive => decide (toAsciiLowercase p0 = toAsciiLowercase s0)

/-- Single-literal bracket member comparison (lines 100-108).  Note the
insensitive branch of the source sets matched when the folded bytes are
UNequal (line 105); the embedding reproduces that faithfully. -/
def singleMatched (c : Case) (p0 s0 : Nat) : Bool :=
  match c with
  | .Sensitive => decide (p0 = s0)
  | .Insensitive => decide (toAsciiLowercase p0 ≠ toAsciiLowercase s0)

/-- Range bracket member comparison (lines 79-98): endpoints are swapped
on raw byte values when given in decreasing order, then (in insensitive
mode) all three bytes are folded, then the inclusive comparison runs. -/
def rangeMatched (c : Case) (lo hi s0 : Nat) : Bool :=
  let start0 := if lo > hi then hi else lo
  let end0 := if lo > hi then lo else hi
  match c with
  | .Sensitive => decide (start0 ≤ s0 ∧ s0 ≤ end0)
  | .Insensitive =>
      decide (toAsciiLowercase start0 ≤ toAsciiLowercase s0 ∧
        toAsciiLowercase s0 ≤ toAsciiLowercase end0)

/-- Skip a leading run of star bytes (42) of the pattern; models the
trailing-star skip of lines 151-153. -/
def dropStars : List Nat → List Nat
  | [] => []
  | a :: rest => if a = 42 then dropStars rest else a :: rest

/-- The star-coalescing loop of lines 40-42: while the pattern is longer
than two bytes and its second byte is a star, drop the leading byte. -/
def starCollapse : List Nat → List Nat
  | [] => []
  | [a] => [a]
  | a :: b :: rest =>
      if b = 42 ∧ rest ≠ [] then starCollapse (b :: rest) else a :: b :: rest

/-- The bracket-class member loop of lines 68-111.  q is the pattern after
the opening bracket (and after a possible negation byte), s0 the current
subject byte, m the matched flag accumulated so far.  Returns the final
matched flag and the remaining pattern (either starting at the closing
bracket byte 93, or empty when the class was unterminated). -/
def bracketScan (q : List Nat) (s0 : Nat) (c : Case) (m : Bool) :
    Bool × List Nat :=
  match q with
  | [] => (m, [])
  | q0 :: qrest =>
    if q0 = 92 ∧ qrest ≠ [] then
      bracketScan qrest.tail s0 c (m || decide (qrest.headD 0 = s0))
    else if q0 = 93 then
      (m, q0 :: qrest)
    else if 2 ≤ qrest.length ∧ qrest.headD 0 = 45 then
      bracketScan qrest.tail.tail s0 c
        (m || rangeMatched c q0 (qrest.tail.headD 0) s0)
    else
      bracketScan qrest s0 c (m || singleMatched c q0 s0)
termination_by q.length
decreasing_by
  all_goals simp [List.length_tail]
  all_goals omega

/-- The bracket class after the opening bracket, with the negation byte
handled (lines 63-66 and 113-115): q0 is the first byte after the opening
bracket, qrest the rest of the pattern.  Returns the final (possibly
negated) matched flag and the remaining pattern. -/
def bracketClass (q0 : Nat) (qrest : List Nat) (s0 : Nat) (c : Case) :
    Bool × List Nat :=
  if q0 = 94 then
    let r := bracketScan qrest s0 c false
    (!r.1, r.2)
  else
    let r := bracketScan (q0 :: qrest) s0 c false
    (r.1, r.2)

theorem bracketScan_snd_length_le_aux (n : Nat) : ∀ (q : List Nat),
    q.length ≤ n → ∀ (s0 : Nat) (c : Case) (m : Bool),
    (bracketScan q s0 c m).2.length ≤ q.length := by
  induction n with
  | zero =>
      intro q hq s0 c m
      have hq0 : q = [] := List.eq_nil_of_length_eq_zero (by omega)
      subst hq0
      rw [bracketScan]
  | succ n ih =>
      intro q hq s0 c m
      cases q with
      | nil => rw [bracketScan]
      | cons q0 qrest =>
          rw [bracketScan]
          simp only [List.length_cons] at hq
          split
          · refine le_trans (ih qrest.tail ?_ s0 c _) ?_ <;>
              simp [List.length_tail] <;> omega
          · split
            · simp
            · split
              · refine le_trans (ih qrest.tail.tail ?_ s0 c _) ?_ <;>
                  simp [List.length_tail] <;> omega
              · refine le_trans (ih qrest (by omega) s0 c _) ?_
                simp

theorem bracketScan_snd_length_le (q : List Nat) (s0 : Nat) (c : Case)
    (m : Bool) : (bracketScan q s0 c m).2.length ≤ q.length :=
  bracketScan_snd_length_le_aux q.length q le_rfl s0 c m

theorem bracketClass_snd_length_le (q0 : Nat) (qrest : List Nat) (s0 : Nat)
    (c : Case) : (bracketClass q0 qrest s0 c).2.length ≤ qrest.length + 1 := by
  unfold bracketClass
  split
  · exact le_trans (bracketScan_snd_length_le qrest s0 c false) (by omega)
  · exact bracketScan_snd_length_le (q0 :: qrest) s0 c false

theorem starCollapse_length_le_aux (n : Nat) : ∀ (l : List Nat),
    l.length ≤ n → (starCollapse l).length ≤ l.length := by
  induction n with
  | zero =>
      intro l hl
      have hl0 : l = [] := List.eq_nil_of_length_eq_zero (by omega)
      subst hl0
      rw [starCollapse]
  | succ n ih =>
      intro l hl
      cases l with
      | nil => rw [starCollapse]
      | cons a rest =>
          cases rest with
          | nil => rw [starCollapse]
          | cons b rest2 =>
              rw [starCollapse]
              simp only [List.length_cons] at hl
              split
              · refine le_trans (ih (b :: rest2) (by simp; omega)) ?_
                simp
              · exact le_refl _

theorem starCollapse_length_le (l : List Nat) :
    (starCollapse l).length ≤ l.length :=
  starCollapse_length_le_aux l.length l le_rfl

mutual

/-- Shallow embedding of stringmatch_bytes (lines 35-159).  none models a
panic: the only panicking access in the source is reading the byte after
an opening bracket that ends the pattern (line 63). -/
def stringmatch_bytes : List Nat → List Nat → Case → Option Bool
  | [], string, _ => some (decide (string = []))
  | _ :: _, [], _ => some false
  | p0 :: prest, s0 :: srest, c =>
    if p0 = 42 then
      if (starCollapse (p0 :: prest)).length = 1 then some true
      else starLoop (starCollapse (p0 :: prest)).tail (s0 :: srest) c
    else if p0 = 63 then
      matchStep (p0 :: prest) srest c
    else if p0 = 91 then
      bracketCase prest s0 srest c
    else if p0 = 92 ∧ prest ≠ [] then
      if byteMatches c (prest.headD 0) s0 then matchStep prest srest c
      else some false
    else
      if byteMatches c p0 s0 then matchStep (p0 :: prest) srest c
      else some false
termination_by p s _ => 2 * p.length + s.length + 2
decreasing_by
  all_goals simp_wf
  all_goals first
    | omega
    | (have h1 := starCollapse_length_le (p0 :: prest)
       simp only [List.length_tail, List.length_cons] at h1 ⊢
       omega)

/-- The bracket branch of the match (lines 61-122): prest is the pattern
after the opening bracket, s0 the current subject byte.  An empty prest
models the out-of-bounds read of line 63 (panic, none).  When the class
fails the whole match fails; when it matches, one subject byte is consumed
and the loop continues at the remaining pattern. -/
def bracketCase : List Nat → Nat → List Nat → Case → Option Bool
  | [], _, _, _ => none
  | q0 :: qrest, s0, srest, c =>
    if (bracketClass q0 qrest s0 c).1 then
      matchStep (bracketClass q0 qrest s0 c).2 srest c
    else some false
termination_by q _ s _ => 2 * q.length + s.length + 2
decreasing_by
  simp_wf
  have h2 := bracketClass_snd_length_le q0 qrest s0 c
  omega

/-- Lines 145-155 followed by re-entering the loop: drop the token byte
(guarded against an empty pattern), and when the subject is exhausted skip
trailing stars and return the final condition of line 158. -/
def matchStep : List Nat → List Nat → Case → Option Bool
  | pattern, [], _ => some (decide (dropStars pattern.tail = []))
  | [], _ :: _, _ => some false
  | [_], _ :: _, _ => some false
  | _ :: p1 :: p1rest, s0 :: srest, c =>
    stringmatch_bytes (p1 :: p1rest) (s0 :: srest) c
termination_by p s _ => 2 * p.length + s.length + 1
decreasing_by
  simp_wf
  omega

/-- The backtracking loop of the star branch (lines 47-52): try the
pattern after the star against every split of the subject, stopping at the
first success (or propagating a panic), and failing once the subject is
exhausted. -/
def starLoop : List Nat → List Nat → Case → Option Bool
  | _, [], _ => some false
  | prest, s0 :: srest, c =>
    match stringmatch_bytes prest (s0 :: srest) c with
    | none => none
    | some true => some true
    | some false => starLoop prest srest c
termination_by p s _ => 2 * p.length + s.length + 3
decreasing_by
  all_goals simp_wf

end

/-- The public entry point stringmatch (lines 23-25): byte-level matching
in sensitive mode. -/
def stringmatch (pattern string : List Nat) : Option Bool :=
  stringmatch_bytes pattern string Case.Sensitive

/-- Case folding as applied by one comparison of the matcher: the identity
in sensitive mode, u8::to_ascii_lowercase in insensitive mode. -/
def foldByte (c : Case) (b : Nat) : Nat :=
  match c with
  | .Sensitive => b
  | .Insensitive => toAsciiLowercase b

/-- The bracket-range membership formula in the words of the claim: the
three bytes (low endpoint, high endpoint, subject byte) are folded first,
and the folded subject byte is compared against min and max of the folded
endpoints.  This is a spec-side definition, kept separate from the
source-side rangeMatched so the two can be compared. -/
def rangeMemberSpec (c : Case) (lo hi s0 : Nat) : Bool :=
  decide (min (foldByte c lo) (foldByte c hi) ≤ foldByte c s0 ∧
    foldByte c s0 ≤ max (foldByte c lo) (foldByte c hi))

mutual

/-- Fuel-bounded evaluator for the matcher: identical to
stringmatch_bytes except that every re-entry of the main loop and every
recursive call of the star branch consumes one unit of fuel.  The outer
none means the fuel ran out; some r means the matcher finishes with
result r within the given recursion depth. -/
def smGoF : Nat → List Nat → List Nat → Case → Option (Option Bool)
  | 0, _, _, _ => none
  | _ + 1, [], string, _ => some (some (decide (string = [])))
  | _ + 1, _ :: _, [], _ => some (some false)
  | f + 1, p0 :: prest, s0 :: srest, c =>
    if p0 = 42 then
      if (starCollapse (p0 :: prest)).length = 1 then some (some true)
      else starLoopF f (starCollapse (p0 :: prest)).tail (s0 :: srest) c
    else if p0 = 63 then
      matchStepF f (p0 :: prest) srest c
    else if p0 = 91 then
      bracketCaseF f prest s0 srest c
    else if p0 = 92 ∧ prest ≠ [] then
      if byteMatches c (prest.headD 0) s0 then matchStepF f prest srest c
      else some (some false)
    else
      if byteMatches c p0 s0 then matchStepF f (p0 :: prest) srest c
      else some (some false)
termination_by f _ s _ => (f, 0, s.length)

/-- Fuel-bounded version of bracketCase. -/
def bracketCaseF : Nat → List Nat → Nat → List Nat → Case →
    Option (Option Bool)
  | _, [], _, _, _ => some none
  | f, q0 :: qrest, s0, srest, c =>
    if (bracketClass q0 qrest s0 c).1 then
      matchStepF f (bracketClass q0 qrest s0 c).2 srest c
    else some (some false)
termination_by f _ _ s _ => (f, 2, s.length)

/-- Fuel-bounded version of matchStep. -/
def matchStepF : Nat → List Nat → List Nat → Case → Option (Option Bool)
  | _, pattern, [], _ => some (some (decide (dropStars pattern.tail = [])))
  | _, [], _ :: _, _ => some (some false)
  | _, [_], _ :: _, _ => some (some false)
  | f, _ :: p1 :: p1rest, s0 :: srest, c =>
    smGoF f (p1 :: p1rest) (s0 :: srest) c
termination_by f _ s _ => (f, 1, s.length)

/-- Fuel-bounded version of starLoop. -/
def starLoopF : Nat → List Nat → List Nat → Case → Option (Option Bool)
  | _, _, [], _ => some (some false)
  | f, prest, s0 :: srest, c =>
    match smGoF f prest (s0 :: srest) c with
    | none => none
    | some none => some none
    | some (some true) => some (some true)
    | some (some false) => starLoopF f prest srest c
termination_by f _ s _ => (f, 3, s.length)

end

/-! ### Unfolding lemmas for the mutual definitions -/

theorem smb_nil (s : List Nat) (c : Case) :
    stringmatch_bytes [] s c = some (decide (s = [])) := by
  rw [stringmatch_bytes]

theorem smb_cons_nil (p0 : Nat) (prest : List Nat) (c : Case) :
    stringmatch_bytes (p0 :: prest) [] c = some false := by
  rw [stringmatch_bytes]

theorem smb_nil_subject (p : List Nat) (c : Case) (h : p ≠ []) :
    stringmatch_bytes p [] c = some false := by
  cases p with
  | nil => exact absurd rfl h
  | cons p0 prest => exact smb_cons_nil p0 prest c

theorem smb_star (prest : List Nat) (s0 : Nat) (srest : List Nat) (c : Case) :
    stringmatch_bytes (42 :: prest) (s0 :: srest) c =
      if (starCollapse (42 :: prest)).length = 1 then some true
      else starLoop (starCollapse (42 :: prest)).tail (s0 :: srest) c := by
  rw [stringmatch_bytes]
  simp

theorem smb_qmark (prest : List Nat) (s0 : Nat) (srest : List Nat)
    (c : Case) : stringmatch_bytes (63 :: prest) (s0 :: srest) c =
      matchStep (63 :: prest) srest c := by
  rw [stringmatch_bytes]
  simp

theorem smb_bracket (prest : List Nat) (s0 : Nat) (srest : List Nat)
    (c : Case) : stringmatch_bytes (91 :: prest) (s0 :: srest) c =
      bracketCase prest s0 srest c := by
  rw [stringmatch_bytes]
  simp

theorem smb_esc (e0 : Nat) (erest : List Nat) (s0 : Nat) (srest : List Nat)
    (c : Case) : stringmatch_bytes (92 :: e0 :: erest) (s0 :: srest) c =
      if byteMatches c e0 s0 then matchStep (e0 :: erest) srest c
      else some false := by
  rw [stringmatch_bytes]
  simp

theorem smb_lit (p0 : Nat) (prest : List Nat) (s0 : Nat) (srest : List Nat)
    (c : Case) (h1 : p0 ≠ 42) (h2 : p0 ≠ 63) (h3 : p0 ≠ 91)
    (h4 : ¬(p0 = 92 ∧ prest ≠ [])) :
    stringmatch_bytes (p0 :: prest) (s0 :: srest) c =
      if byteMatches c p0 s0 then matchStep (p0 :: prest) srest c
      else some false := by
  rw [stringmatch_bytes]
  rw [if_neg h1, if_neg h2, if_neg h3, if_neg h4]

theorem ms_nil_subject (p : List Nat) (c : Case) :
    matchStep p [] c = some (decide (dropStars p.tail = [])) := by
  rw [matchStep]

theorem ms_nil (s0 : Nat) (srest : List Nat) (c : Case) :
    matchStep [] (s0 :: srest) c = some false := by
  rw [matchStep]

theorem ms_single (p0 s0 : Nat) (srest : List Nat) (c : Case) :
    matchStep [p0] (s0 :: srest) c = some false := by
  rw [matchStep]

theorem ms_cons (p0 p1 : Nat) (p1rest : List Nat) (s0 : Nat)
    (srest : List Nat) (c : Case) :
    matchStep (p0 :: p1 :: p1rest) (s0 :: srest) c =
      stringmatch_bytes (p1 :: p1rest) (s0 :: srest) c := by
  rw [matchStep]

theorem sl_nil (d : List Nat) (c : Case) : starLoop d [] c = some false := by
  rw [starLoop]

theorem sl_cons (d : List Nat) (s0 : Nat) (srest : List Nat) (c : Case) :
    starLoop d (s0 :: srest) c =
      match stringmatch_bytes d (s0 :: srest) c with
      | none => none
      | some true => some true
      | some false => starLoop d srest c := by
  rw [starLoop]

theorem sl_cons_none (d : List Nat) (s0 : Nat) (srest : List Nat) (c : Case)
    (h : stringmatch_bytes d (s0 :: srest) c = none) :
    starLoop d (s0 :: srest) c = none := by
  rw [sl_cons, h]

theorem sl_cons_true (d : List Nat) (s0 : Nat) (srest : List Nat) (c : Case)
    (h : stringmatch_bytes d (s0 :: srest) c = some true) :
    starLoop d (s0 :: srest) c = some true := by
  rw [sl_cons, h]

theorem sl_cons_false (d : List Nat) (s0 : Nat) (srest : List Nat) (c : Case)
    (h : stringmatch_bytes d (s0 :: srest) c = some false) :
    starLoop d (s0 :: srest) c = starLoop d srest c := by
  rw [sl_cons, h]

theorem bc_nil (s0 : Nat) (srest : List Nat) (c : Case) :
    bracketCase [] s0 srest c = none := by
  rw [bracketCase]

theorem bc_cons (q0 : Nat) (qrest : List Nat) (s0 : Nat) (srest : List Nat)
    (c : Case) : bracketCase (q0 :: qrest) s0 srest c =
      if (bracketClass q0 qrest s0 c).1 then
        matchStep (bracketClass q0 qrest s0 c).2 srest c
      else some false := by
  rw [bracketCase]

/-! ### Structure of dropStars and starCollapse -/

theorem dropStars_cons_eq_nil (a : Nat) (rest : List Nat)
    (h : dropStars (a :: rest) = []) : a = 42 ∧ dropStars rest = [] := by
  rw [dropStars] at h
  by_cases ha : a = 42
  · rw [if_pos ha] at h
    exact ⟨ha, h⟩
  · rw [if_neg ha] at h
    exact absurd h (by simp)

theorem dropStars_tail_eq_nil (p : List Nat) (h : dropStars p = []) :
    dropStars p.tail = [] := by
  cases p with
  | nil => simpa using h
  | cons a rest => exact (dropStars_cons_eq_nil a rest h).2

theorem starCollapse_cons_ne_nil_aux (n : Nat) : ∀ (a : Nat) (l : List Nat),
    l.length ≤ n → starCollapse (a :: l) ≠ [] := by
  induction n with
  | zero =>
      intro a l hl
      have hl0 : l = [] := List.eq_nil_of_length_eq_zero (by omega)
      subst hl0
      rw [starCollapse]
      simp
  | succ n ih =>
      intro a l hl
      cases l with
      | nil =>
          rw [starCollapse]
          simp
      | cons b rest =>
          rw [starCollapse]
          split
          · exact ih b rest (by simpa using Nat.le_of_succ_le_succ hl)
          · simp

theorem starCollapse_cons_ne_nil (a : Nat) (l : List Nat) :
    starCollapse (a :: l) ≠ [] :=
  starCollapse_cons_ne_nil_aux l.length a l le_rfl

theorem dropStars_starCollapse_aux (n : Nat) : ∀ (l : List Nat),
    l.length ≤ n → dropStars l = [] → dropStars (starCollapse l) = [] := by
  induction n with
  | zero =>
      intro l hl h
      have hl0 : l = [] := List.eq_nil_of_length_eq_zero (by omega)
      subst hl0
      rw [starCollapse]
      exact h
  | succ n ih =>
      intro l hl h
      cases l with
      | nil =>
          rw [starCollapse]
          exact h
      | cons a rest =>
          cases rest with
          | nil =>
              rw [starCollapse]
              exact h
          | cons b rest2 =>
              rw [starCollapse]
              split
              · refine ih (b :: rest2) (by simpa using Nat.le_of_succ_le_succ hl) ?_
                exact (dropStars_cons_eq_nil a (b :: rest2) h).2
              · exact h

theorem dropStars_starCollapse (l : List Nat) (h : dropStars l = []) :
    dropStars (starCollapse l) = [] :=
  dropStars_starCollapse_aux l.length l le_rfl h

/-! ### All-star patterns -/

theorem smb_allstars_aux (n : Nat) : ∀ (p : List Nat), p.length ≤ n →
    dropStars p = [] → p ≠ [] → ∀ (s0 : Nat) (srest : List Nat) (c : Case),
    stringmatch_bytes p (s0 :: srest) c = some true := by
  induction n with
  | zero =>
      intro p hp hds hne s0 srest c
      exact absurd (List.eq_nil_of_length_eq_zero (by omega)) hne
  | succ n ih =>
      intro p hp hds hne s0 srest c
      cases p with
      | nil => exact absurd rfl hne
      | cons p0 prest =>
          obtain ⟨h42, hrest⟩ := dropStars_cons_eq_nil p0 prest hds
          subst h42
          rw [smb_star]
          by_cases hq : (starCollapse (42 :: prest)).length = 1
          · rw [if_pos hq]
          · rw [if_neg hq]
            have hqnil := starCollapse_cons_ne_nil 42 prest
            have hqds := dropStars_starCollapse (42 :: prest) hds
            have hlen := starCollapse_length_le (42 :: prest)
            have htailds := dropStars_tail_eq_nil _ hqds
            have htailne : (starCollapse (42 :: prest)).tail ≠ [] := by
              intro hcon
              have ht := List.length_tail (starCollapse (42 :: prest))
              rw [hcon] at ht
              simp only [List.length_nil] at ht
              have h2 : (starCollapse (42 :: prest)).length ≠ 0 := by
                intro h0
                exact hqnil (List.eq_nil_of_length_eq_zero h0)
              omega
            have htaillen : (starCollapse (42 :: prest)).tail.length ≤ n := by
              have ht := List.length_tail (starCollapse (42 :: prest))
              simp only [List.length_cons] at hlen hp
              omega
            have := ih (starCollapse (42 :: prest)).tail htaillen htailds
              htailne s0 srest c
            rw [sl_cons_true _ _ _ _ this]

theorem smb_allstars (p : List Nat) (hds : dropStars p = []) (hne : p ≠ [])
    (s0 : Nat) (srest : List Nat) (c : Case) :
    stringmatch_bytes p (s0 :: srest) c = some true :=
  smb_allstars_aux p.length p le_rfl hds hne s0 srest c

theorem smb_allstars_ne_none (p : List Nat) (hds : dropStars p = [])
    (s : List Nat) (c : Case) : stringmatch_bytes p s c ≠ none := by
  cases p with
  | nil =>
      rw [smb_nil]
      simp
  | cons p0 prest =>
      cases s with
      | nil =>
          rw [smb_cons_nil]
          simp
      | cons s0 srest =>
          rw [smb_allstars (p0 :: prest) hds (by simp) s0 srest c]
          simp

/-! ### The star loop: witnesses for its outcomes -/

theorem sl_none_witness (d : List Nat) (c : Case) : ∀ (s : List Nat),
    starLoop d s c = none →
    ∃ k, stringmatch_bytes d (List.drop k s) c = none := by
  intro s
  induction s with
  | nil =>
      rw [sl_nil]
      intro h
      exact absurd h (by simp)
  | cons s0 srest ih =>
      rw [sl_cons]
      intro h
      cases hh : stringmatch_bytes d (s0 :: srest) c with
      | none => exact ⟨0, by simpa using hh⟩
      | some b =>
          rw [hh] at h
          cases b with
          | true => simp at h
          | false =>
              obtain ⟨k, hk⟩ := ih h
              exact ⟨k + 1, by simpa using hk⟩

theorem sl_true_witness (d : List Nat) (c : Case) : ∀ (s : List Nat),
    starLoop d s c = some true →
    ∃ k, k < s.length ∧ stringmatch_bytes d (List.drop k s) c = some true := by
  intro s
  induction s with
  | nil =>
      rw [sl_nil]
      intro h
      exact absurd h (by simp)
  | cons s0 srest ih =>
      rw [sl_cons]
      intro h
      cases hh : stringmatch_bytes d (s0 :: srest) c with
      | none =>
          rw [hh] at h
          simp at h
      | some b =>
          rw [hh] at h
          cases b with
          | true => exact ⟨0, by simp, by simpa using hh⟩
          | false =>
              obtain ⟨k, hk1, hk2⟩ := ih h
              exact ⟨k + 1, by simp; omega, by simpa using hk2⟩

theorem sl_no_true (d : List Nat) (c : Case)
    (hall : ∀ u, stringmatch_bytes d u c ≠ some true) :
    ∀ (s : List Nat), starLoop d s c ≠ some true := by
  intro s
  induction s with
  | nil =>
      rw [sl_nil]
      simp
  | cons s0 srest ih =>
      rw [sl_cons]
      cases hh : stringmatch_bytes d (s0 :: srest) c with
      | none => simp
      | some b =>
          cases b with
          | true => exact absurd hh (hall (s0 :: srest))
          | false => simpa using ih

/-! ### The remaining pattern after a bracket class does not depend on the
subject byte -/

theorem bracketScan_snd_indep_aux (n : Nat) : ∀ (q : List Nat),
    q.length ≤ n → ∀ (a b : Nat) (c : Case) (m1 m2 : Bool),
    (bracketScan q a c m1).2 = (bracketScan q b c m2).2 := by
  induction n with
  | zero =>
      intro q hq a b c m1 m2
      have hq0 : q = [] := List.eq_nil_of_length_eq_zero (by omega)
      subst hq0
      rw [bracketScan, bracketScan]
  | succ n ih =>
      intro q hq a b c m1 m2
      cases q with
      | nil => rw [bracketScan, bracketScan]
      | cons q0 qrest =>
          simp only [List.length_cons] at hq
          rw [bracketScan, bracketScan]
          split
          · exact ih qrest.tail (by simp [List.length_tail]; omega) a b c _ _
          · split
            · rfl
            · split
              · exact ih qrest.tail.tail
                  (by simp [List.length_tail]; omega) a b c _ _
              · exact ih qrest (by omega) a b c _ _

theorem bracketScan_snd_indep (q : List Nat) (a b : Nat) (c : Case)
    (m1 m2 : Bool) : (bracketScan q a c m1).2 = (bracketScan q b c m2).2 :=
  bracketScan_snd_indep_aux q.length q le_rfl a b c m1 m2

theorem bracketClass_snd_indep (q0 : Nat) (qrest : List Nat) (a b : Nat)
    (c : Case) : (bracketClass q0 qrest a c).2 = (bracketClass q0 qrest b c).2 := by
  unfold bracketClass
  by_cases h : q0 = 94
  · rw [if_pos h, if_pos h]
    exact bracketScan_snd_indep qrest a b c false false
  · rw [if_neg h, if_neg h]
    exact bracketScan_snd_indep (q0 :: qrest) a b c false false

/-! ### A pattern that panics on one subject never succeeds on another:
whether the matcher reads past the pattern depends on the pattern alone,
because token boundaries are pattern-driven -/

theorem matchStep_none_aux (n : Nat)
    (ih : ∀ (q : List Nat), q.length ≤ n → ∀ (c : Case) (s t : List Nat),
      stringmatch_bytes q s c = none → stringmatch_bytes q t c ≠ some true)
    (x : List Nat) (hx : x.length ≤ n + 1) (c : Case) (srest trest : List Nat)
    (hnone : matchStep x srest c = none) :
    matchStep x trest c ≠ some true := by
  cases srest with
  | nil =>
      rw [ms_nil_subject] at hnone
      simp at hnone
  | cons s1 s2 =>
      cases x with
      | nil =>
          rw [ms_nil] at hnone
          simp at hnone
      | cons x0 xrest =>
          cases xrest with
          | nil =>
              rw [ms_single] at hnone
              simp at hnone
          | cons x1 x2 =>
              rw [ms_cons] at hnone
              cases trest with
              | nil =>
                  rw [ms_nil_subject]
                  intro hcon
                  simp only [List.tail_cons, Option.some.injEq,
                    decide_eq_true_eq] at hcon
                  exact smb_allstars_ne_none (x1 :: x2) hcon (s1 :: s2) c hnone
              | cons t1 t2 =>
                  rw [ms_cons]
                  exact ih (x1 :: x2) (by simp at hx ⊢; omega) c (s1 :: s2)
                    (t1 :: t2) hnone

theorem none_not_true_aux (n : Nat) : ∀ (p : List Nat), p.length ≤ n →
    ∀ (c : Case) (s t : List Nat), stringmatch_bytes p s c = none →
    stringmatch_bytes p t c ≠ some true := by
  induction n with
  | zero =>
      intro p hp c s t hnone
      have hp0 : p = [] := List.eq_nil_of_length_eq_zero (by omega)
      subst hp0
      rw [smb_nil] at hnone
      simp at hnone
  | succ n ih =>
      intro p hp c s t hnone
      cases p with
      | nil =>
          rw [smb_nil] at hnone
          simp at hnone
      | cons p0 prest =>
          cases s with
          | nil =>
              rw [smb_cons_nil] at hnone
              simp at hnone
          | cons s0 srest =>
              cases t with
              | nil =>
                  rw [smb_cons_nil]
                  simp
              | cons t0 trest =>
                  simp only [List.length_cons] at hp
                  by_cases h42 : p0 = 42
                  · subst h42
                    rw [smb_star] at hnone
                    rw [smb_star]
                    by_cases hq : (starCollapse (42 :: prest)).length = 1
                    · rw [if_pos hq] at hnone
                      simp at hnone
                    · rw [if_neg hq] at hnone
                      rw [if_neg hq]
                      obtain ⟨k, hk⟩ :=
                        sl_none_witness _ c (s0 :: srest) hnone
                      have hdlen :
                          (starCollapse (42 :: prest)).tail.length ≤ n := by
                        have ht := List.length_tail (starCollapse (42 :: prest))
                        have hlen := starCollapse_length_le (42 :: prest)
                        simp only [List.length_cons] at hlen
                        omega
                      exact sl_no_true _ c
                        (fun u => ih _ hdlen c _ u hk) (t0 :: trest)
                  · by_cases h63 : p0 = 63
                    · subst h63
                      rw [smb_qmark] at hnone
                      rw [smb_qmark]
                      exact matchStep_none_aux n ih (63 :: prest)
                        (by simp; omega) c srest trest hnone
                    · by_cases h91 : p0 = 91
                      · subst h91
                        rw [smb_bracket] at hnone
                        rw [smb_bracket]
                        cases prest with
                        | nil =>
                            rw [bc_nil]
                            simp
                        | cons q0 qrest =>
                            rw [bc_cons] at hnone
                            rw [bc_cons]
                            by_cases hfs : (bracketClass q0 qrest s0 c).1
                            · rw [if_pos hfs] at hnone
                              by_cases hft : (bracketClass q0 qrest t0 c).1
                              · rw [if_pos hft,
                                  bracketClass_snd_indep q0 qrest t0 s0 c]
                                refine matchStep_none_aux n ih _ ?_ c
                                  srest trest hnone
                                have := bracketClass_snd_length_le q0 qrest s0 c
                                simp only [List.length_cons] at hp
                                omega
                              · rw [if_neg hft]
                                simp
                            · rw [if_neg hfs] at hnone
                              simp at hnone
                      · by_cases h92 : p0 = 92 ∧ prest ≠ []
                        · obtain ⟨h92a, h92b⟩ := h92
                          subst h92a
                          cases prest with
                          | nil => exact absurd rfl h92b
                          | cons e0 erest =>
                              rw [smb_esc] at hnone
                              rw [smb_esc]
                              by_cases hbs : byteMatches c e0 s0
                              · rw [if_pos hbs] at hnone
                                by_cases hbt : byteMatches c e0 t0
                                · rw [if_pos hbt]
                                  exact matchStep_none_aux n ih (e0 :: erest)
                                    (by simp at hp ⊢; omega) c srest trest hnone
                                · rw [if_neg hbt]
                                  simp
                              · rw [if_neg hbs] at hnone
                                simp at hnone
                        · rw [smb_lit p0 prest s0 srest c h42 h63 h91 h92]
                            at hnone
                          rw [smb_lit p0 prest t0 trest c h42 h63 h91 h92]
                          by_cases hbs : byteMatches c p0 s0
                          · rw [if_pos hbs] at hnone
                            by_cases hbt : byteMatches c p0 t0
                            · rw [if_pos hbt]
                              exact matchStep_none_aux n ih (p0 :: prest)
                                (by simp; omega) c srest trest hnone
                            · rw [if_neg hbt]
                              simp
                          · rw [if_neg hbs] at hnone
                            simp at hnone

/-- If the matcher panics on some subject for a given pattern, it cannot
succeed on any subject for that pattern. -/
theorem none_not_true (p : List Nat) (c : Case) (s t : List Nat)
    (hnone : stringmatch_bytes p s c = none) :
    stringmatch_bytes p t c ≠ some true :=
  none_not_true_aux p.length p le_rfl c s t hnone

theorem sl_of_exists (d : List Nat) (c : Case) : ∀ (s : List Nat) (k : Nat),
    k < s.length → stringmatch_bytes d (List.drop k s) c = some true →
    starLoop d s c = some true := by
  intro s
  induction s with
  | nil =>
      intro k hk
      simp at hk
  | cons s0 srest ih =>
      intro k hk htrue
      cases hh : stringmatch_bytes d (s0 :: srest) c with
      | none => exact absurd htrue (none_not_true d c (s0 :: srest) _ hh)
      | some b =>
          cases b with
          | true => exact sl_cons_true d s0 srest c hh
          | false =>
              cases k with
              | zero =>
                  rw [List.drop_zero] at htrue
                  rw [htrue] at hh
                  simp at hh
              | succ k =>
                  rw [List.drop_succ_cons] at htrue
                  rw [sl_cons_false d s0 srest c hh]
                  exact ih k (by simpa using hk) htrue

theorem starCollapse_two (a b : Nat) : starCollapse [a, b] = [a, b] := by
  rw [starCollapse]
  simp

theorem starCollapse_cons_cons_ne (a b : Nat) (rest : List Nat)
    (hb : b ≠ 42) : starCollapse (a :: b :: rest) = a :: b :: rest := by
  rw [starCollapse]
  rw [if_neg (by simp [hb])]

theorem starCollapse_single (a : Nat) : starCollapse [a] = [a] := by
  rw [starCollapse]

theorem smb_single_star (s0 : Nat) (srest : List Nat) (c : Case) :
    stringmatch_bytes [42] (s0 :: srest) c = some true := by
  rw [smb_star, starCollapse_single]
  simp

/-! ### Claim theorems -/

/-- Claim C1: the claim states the matcher is total and never performs an
out-of-bounds access, even on a pattern whose last byte is an opening
bracket.  The code violates this: on pattern consisting of the single
byte 91 (an opening bracket) and the non-empty subject 97, the source
reads pattern byte 0 of an empty slice at line 63, a panic, modelled here
as the none result. -/
theorem c1_bracket_end_panics :
    stringmatch_bytes [91] [97] Case.Sensitive = none := by
  simp [stringmatch_bytes, bracketCase]

/-- Claim C2: the claim states the single-star pattern matches every
subject including the empty one, and that an all-star pattern matches the
empty subject.  The code violates this: with an empty subject the main
loop is never entered and line 158 reports the non-empty pattern as a
failure, so both the single-star and the double-star pattern reject the
empty subject. -/
theorem c2_star_vs_empty_subject :
    stringmatch_bytes [42] [] Case.Sensitive = some false ∧
    stringmatch_bytes [42, 42] [] Case.Sensitive = some false := by
  constructor <;> simp [stringmatch_bytes]

/-- Claim C3 counterexample: the claim states a negated empty class never
matches; the code matches it against the subject byte 97, because the
negation flag of line 113 inverts the matched-nothing flag of the empty
class into a success. -/
theorem c3_counterexample_negated_empty :
    stringmatch_bytes [91, 94, 93] [97] Case.Sensitive = some true := by
  simp [stringmatch_bytes, bracketCase, bracketClass, bracketScan,
    matchStep, dropStars]

/-- Claim C3 (amended): an empty non-negated bracket class never matches
any subject byte, but the negated empty class matches every subject byte:
the negation flag turns the empty, memberless class into a
match-anything class. -/
theorem c3_empty_bracket (b : Nat) (c : Case) :
    stringmatch_bytes [91, 93] [b] c = some false ∧
    stringmatch_bytes [91, 94, 93] [b] c = some true := by
  constructor <;>
    simp [stringmatch_bytes, bracketCase, bracketClass, bracketScan,
      matchStep, dropStars]

/-- Claim C4: the claim states that in insensitive mode a single-literal
class member matches exactly on folded equality.  The code does the
opposite (line 105 sets matched on folded inequality): the class
consisting of the literal 97 rejects the subject byte 97 and accepts the
subject byte 98 in insensitive mode. -/
theorem c4_insensitive_bracket_inverted :
    stringmatch_bytes [91, 97, 93] [97] Case.Insensitive = some false ∧
    stringmatch_bytes [91, 97, 93] [98] Case.Insensitive = some true := by
  constructor <;>
    simp [stringmatch_bytes, bracketCase, bracketClass, bracketScan,
      singleMatched, toAsciiLowercase, matchStep, dropStars]

/-- Claim C5: for a pattern beginning with a star token that is not the
final pattern byte (the remainder after the star written explicitly and
not itself starting with a star, matching the spec text in which star
runs are already coalesced), matching a non-empty subject succeeds if and
only if some suffix of the subject, the empty suffix included, matches
the remainder of the pattern after the star. -/
theorem c5_star_tries_all_splits (r0 : Nat) (rrest s : List Nat) (c : Case)
    (h42 : r0 ≠ 42) (hs : s ≠ []) :
    (stringmatch_bytes (42 :: r0 :: rrest) s c = some true ↔
      ∃ k, k ≤ s.length ∧
        stringmatch_bytes (r0 :: rrest) (List.drop k s) c = some true) := by
  cases s with
  | nil => exact absurd rfl hs
  | cons s0 srest =>
      have hsc : starCollapse (42 :: r0 :: rrest) = 42 :: r0 :: rrest :=
        starCollapse_cons_cons_ne 42 r0 rrest h42
      rw [smb_star, hsc]
      rw [if_neg (by simp)]
      simp only [List.tail_cons]
      constructor
      · intro h
        obtain ⟨k, hk1, hk2⟩ :=
          sl_true_witness (r0 :: rrest) c (s0 :: srest) h
        exact ⟨k, le_of_lt hk1, hk2⟩
      · rintro ⟨k, hk1, hk2⟩
        rcases Nat.lt_or_ge k (s0 :: srest).length with hlt | hge
        · exact sl_of_exists (r0 :: rrest) c (s0 :: srest) k hlt hk2
        · rw [List.drop_eq_nil_of_le hge] at hk2
          rw [smb_cons_nil] at hk2
          simp at hk2

/-- Witness for C5: the pattern star-then-97 matches the subject 98, 97
via the split point that drops one leading byte. -/
theorem c5_star_tries_all_splits_witness :
    stringmatch_bytes [42, 97] [98, 97] Case.Sensitive = some true :=
  (c5_star_tries_all_splits 97 [] [98, 97] Case.Sensitive (by decide)
    (by decide)).mpr
    ⟨1, by decide, by
      simp [stringmatch_bytes, matchStep, byteMatches, dropStars]⟩

/-- Replacing a double star at the head of the pattern by a single star
preserves the result, for every remainder, subject and case mode. -/
theorem smb_double_star (x s : List Nat) (c : Case) :
    stringmatch_bytes (42 :: 42 :: x) s c =
      stringmatch_bytes (42 :: x) s c := by
  cases s with
  | nil => rw [smb_cons_nil, smb_cons_nil]
  | cons s0 srest =>
      cases x with
      | nil =>
          rw [smb_star, smb_star, starCollapse_two, starCollapse_single]
          rw [if_neg (by simp), if_pos (by simp)]
          simp only [List.tail_cons]
          exact sl_cons_true [42] s0 srest c (smb_single_star s0 srest c)
      | cons x0 xrest =>
          have h1 : starCollapse (42 :: 42 :: x0 :: xrest) =
              starCollapse (42 :: x0 :: xrest) := by
            rw [starCollapse]
            rw [if_pos ⟨rfl, by simp⟩]
          rw [smb_star, smb_star, h1]

/-- Claim C6 counterexample: the claim quantifies over all pattern
prefixes, but a prefix ending in a backslash escapes the first star of
the run, so replacing the run 42, 42 after the prefix 92 by a single 42
changes the result on the subject 42, 42: the two-star pattern matches it
and the one-star pattern rejects it. -/
theorem c6_counterexample_escaped_star :
    stringmatch_bytes [92, 42, 42] [42, 42] Case.Sensitive = some true ∧
    stringmatch_bytes [92, 42] [42, 42] Case.Sensitive = some false := by
  constructor <;>
    simp [stringmatch_bytes, matchStep, starLoop, starCollapse,
      byteMatches, dropStars]

/-- Claim C6 (amended): star-run coalescing is behaviour-preserving where
the run is an actual star token, in particular at the head of the
pattern: a run of n+1 consecutive stars followed by any pattern suffix
matches exactly the same subjects, in every case mode, as a single star
followed by that suffix. -/
theorem c6_star_run_coalesce (n : Nat) (p2 s : List Nat) (c : Case) :
    stringmatch_bytes (List.replicate (n + 1) 42 ++ p2) s c =
      stringmatch_bytes (42 :: p2) s c := by
  induction n with
  | zero => simp [List.replicate]
  | succ n ih =>
      have hsh : List.replicate (n + 1 + 1) 42 ++ p2 =
          42 :: 42 :: (List.replicate n 42 ++ p2) := by
        simp [List.replicate_succ]
      rw [hsh, smb_double_star]
      rw [show (42 :: (List.replicate n 42 ++ p2)) =
        List.replicate (n + 1) 42 ++ p2 by simp [List.replicate_succ]]
      exact ih

/-- Claim C7: anchored full-match semantics on literal patterns.  For a
byte string s containing none of the metacharacters 42, 63, 91, 92,
matching s against itself succeeds in either case mode; matching s
against s with one extra byte appended fails (unconsumed subject bytes);
and matching s with one extra non-star byte appended against s fails
(leftover non-star pattern tail), which covers the moenster-question-mark
example of the claim. -/
theorem c7_literal_identity (s : List Nat) (c : Case)
    (h : ∀ b ∈ s, b ≠ 42 ∧ b ≠ 63 ∧ b ≠ 91 ∧ b ≠ 92) :
    stringmatch_bytes s s c = some true ∧
    (∀ x, stringmatch_bytes s (s ++ [x]) c = some false) ∧
    (∀ x, x ≠ 42 → stringmatch_bytes (s ++ [x]) s c = some false) := by
  induction s with
  | nil =>
      refine ⟨by rw [smb_nil]; simp, fun x => by rw [smb_nil]; simp,
        fun x hx => by simp only [List.nil_append]; rw [smb_cons_nil]⟩
  | cons b srest ih =>
      obtain ⟨hb42, hb63, hb91, hb92⟩ := h b (List.mem_cons_self b srest)
      have ihh := ih (fun y hy => h y (List.mem_cons_of_mem b hy))
      have hbm : byteMatches c b b = true := by
        cases c <;> simp [byteMatches]
      refine ⟨?_, ?_, ?_⟩
      · rw [smb_lit b srest b srest c hb42 hb63 hb91 (by simp [hb92])]
        rw [if_pos hbm]
        cases srest with
        | nil =>
            rw [ms_nil_subject]
            simp [dropStars]
        | cons s1 s2 =>
            rw [ms_cons]
            exact ihh.1
      · intro x
        simp only [List.cons_append]
        rw [smb_lit b srest b (srest ++ [x]) c hb42 hb63 hb91
          (by simp [hb92])]
        rw [if_pos hbm]
        cases srest with
        | nil =>
            simp only [List.nil_append]
            rw [ms_single]
        | cons s1 s2 =>
            simp only [List.cons_append]
            rw [ms_cons]
            have := ihh.2.1 x
            simpa using this
      · intro x hx
        simp only [List.cons_append]
        rw [smb_lit b (srest ++ [x]) b srest c hb42 hb63 hb91
          (by simp [hb92])]
        rw [if_pos hbm]
        cases srest with
        | nil =>
            simp only [List.nil_append]
            rw [ms_nil_subject]
            simp [dropStars, hx]
        | cons s1 s2 =>
            simp only [List.cons_append]
            rw [ms_cons]
            have := ihh.2.2 x hx
            simpa using this

/-- Witness for C7 at the literal string of bytes 109, 111: it matches
itself, rejects itself with an extra subject byte appended, and the
pattern with a trailing question mark rejects it. -/
theorem c7_literal_identity_witness :
    stringmatch_bytes [109, 111] [109, 111] Case.Sensitive = some true ∧
    stringmatch_bytes [109, 111] [109, 111, 120] Case.Sensitive = some false ∧
    stringmatch_bytes [109, 111, 63] [109, 111] Case.Sensitive = some false := by
  have h := c7_literal_identity [109, 111] Case.Sensitive (by decide)
  exact ⟨h.1, h.2.1 120, h.2.2 63 (by decide)⟩

/-- The source range comparison equals: swap the raw endpoints to
ordered position first, then fold, then compare inclusively. -/
theorem rangeMatched_eq_foldMinMax (c : Case) (lo hi s0 : Nat) :
    rangeMatched c lo hi s0 =
      decide (foldByte c (min lo hi) ≤ foldByte c s0 ∧
        foldByte c s0 ≤ foldByte c (max lo hi)) := by
  have hmin : (if lo > hi then hi else lo) = min lo hi := by
    rcases Nat.lt_or_ge hi lo with h | h
    · rw [if_pos h]
      exact (Nat.min_eq_right (le_of_lt h)).symm
    · rw [if_neg (not_lt.mpr h)]
      exact (Nat.min_eq_left h).symm
  have hmax : (if lo > hi then lo else hi) = max lo hi := by
    rcases Nat.lt_or_ge hi lo with h | h
    · rw [if_pos h]
      exact (Nat.max_eq_left (le_of_lt h)).symm
    · rw [if_neg (not_lt.mpr h)]
      exact (Nat.max_eq_right h).symm
  cases c <;> simp [rangeMatched, foldByte, hmin, hmax]

/-- Evaluation of a single-range bracket pattern: the match reduces to
the source range comparison, provided the low endpoint byte is not a
backslash, a closing bracket or a caret (which would change the parse of
the class). -/
theorem smb_single_range (lo hi sb : Nat) (c : Case) (h1 : lo ≠ 92)
    (h2 : lo ≠ 93) (h3 : lo ≠ 94) :
    stringmatch_bytes [91, lo, 45, hi, 93] [sb] c =
      if rangeMatched c lo hi sb then some true else some false := by
  rw [smb_bracket, bc_cons]
  have hscan : bracketScan (lo :: [45, hi, 93]) sb c false =
      (rangeMatched c lo hi sb, [93]) := by
    rw [bracketScan]
    rw [if_neg (by simp [h1]), if_neg h2, if_pos (by simp)]
    simp only [List.tail_cons, List.headD_cons]
    rw [bracketScan]
    rw [if_neg (by simp), if_pos rfl]
    simp
  have hbc : bracketClass lo [45, hi, 93] sb c =
      (rangeMatched c lo hi sb, [93]) := by
    unfold bracketClass
    rw [if_neg h3, hscan]
  rw [hbc]
  by_cases hr : rangeMatched c lo hi sb
  · rw [hr]
    simp only [if_pos trivial]
    rw [ms_nil_subject]
    simp [dropStars]
  · simp only [Bool.not_eq_true] at hr
    rw [hr]
    simp

/-- Claim C8 counterexample: the claim folds the three bytes first and
then compares against min and max of the folded endpoints
(rangeMemberSpec).  The code instead swaps the raw endpoints before
folding, and folding is not monotone: for the insensitive range from 90
to 97 and the subject byte 112, the claim formula accepts while the
matcher rejects. -/
theorem c8_counterexample_fold_order :
    stringmatch_bytes [91, 90, 45, 97, 93] [112] Case.Insensitive =
      some false ∧
    rangeMemberSpec Case.Insensitive 90 97 112 = true := by
  constructor
  · simp [stringmatch_bytes, bracketCase, bracketClass, bracketScan,
      rangeMatched, toAsciiLowercase, matchStep, dropStars]
  · decide

/-- Claim C8 (amended): a bracket range member is inclusive and its
endpoint order is irrelevant, but the endpoints are min-max-swapped on
raw byte values before case folding: the single-range class from lo to
hi matches the subject byte exactly when the folded min endpoint is at
most the folded subject byte which is at most the folded max endpoint.
In sensitive mode this is exactly the min-max formula of the claim, so
the range 97 to 99 and its reversed form both accept the byte 98. -/
theorem c8_range_inclusive_swap_before_fold (lo hi sb : Nat) (c : Case)
    (h1 : lo ≠ 92) (h2 : lo ≠ 93) (h3 : lo ≠ 94) :
    (stringmatch_bytes [91, lo, 45, hi, 93] [sb] c = some true ↔
      (foldByte c (min lo hi) ≤ foldByte c sb ∧
        foldByte c sb ≤ foldByte c (max lo hi))) := by
  rw [smb_single_range lo hi sb c h1 h2 h3, rangeMatched_eq_foldMinMax]
  by_cases h : (foldByte c (min lo hi) ≤ foldByte c sb ∧
      foldByte c sb ≤ foldByte c (max lo hi))
  · simp [h]
  · simp [h]

/-- Witness for C8: the reversed sensitive range from 99 down to 97
accepts the byte 98. -/
theorem c8_range_inclusive_swap_before_fold_witness :
    stringmatch_bytes [91, 99, 45, 97, 93] [98] Case.Sensitive = some true :=
  (c8_range_inclusive_swap_before_fold 99 97 98 Case.Sensitive (by decide)
    (by decide) (by decide)).mpr (by decide)

/-- Claim C9: the single question-mark pattern matches a subject exactly
when the subject consists of exactly one byte, in every case mode. -/
theorem c9_question_mark (s : List Nat) (c : Case) :
    (stringmatch_bytes [63] s c = some true ↔ s.length = 1) := by
  cases s with
  | nil =>
      rw [smb_cons_nil]
      simp
  | cons s0 srest =>
      cases srest with
      | nil =>
          rw [smb_qmark, ms_nil_subject]
          simp [dropStars]
      | cons s1 s2 =>
          rw [smb_qmark, ms_single]
          simp

/-! ### Fuel-bounded evaluation agrees with the matcher -/

theorem smbF_nil (f : Nat) (s : List Nat) (c : Case) :
    smGoF (f + 1) [] s c = some (some (decide (s = []))) := by
  rw [smGoF]

theorem smbF_cons_nil (f : Nat) (p0 : Nat) (prest : List Nat) (c : Case) :
    smGoF (f + 1) (p0 :: prest) [] c = some (some false) := by
  rw [smGoF]

theorem smbF_star (f : Nat) (prest : List Nat) (s0 : Nat) (srest : List Nat)
    (c : Case) : smGoF (f + 1) (42 :: prest) (s0 :: srest) c =
      if (starCollapse (42 :: prest)).length = 1 then some (some true)
      else starLoopF f (starCollapse (42 :: prest)).tail (s0 :: srest) c := by
  rw [smGoF]
  simp

theorem smbF_qmark (f : Nat) (prest : List Nat) (s0 : Nat)
    (srest : List Nat) (c : Case) :
    smGoF (f + 1) (63 :: prest) (s0 :: srest) c =
      matchStepF f (63 :: prest) srest c := by
  rw [smGoF]
  simp

theorem smbF_bracket (f : Nat) (prest : List Nat) (s0 : Nat)
    (srest : List Nat) (c : Case) :
    smGoF (f + 1) (91 :: prest) (s0 :: srest) c =
      bracketCaseF f prest s0 srest c := by
  rw [smGoF]
  simp

theorem smbF_esc (f : Nat) (e0 : Nat) (erest : List Nat) (s0 : Nat)
    (srest : List Nat) (c : Case) :
    smGoF (f + 1) (92 :: e0 :: erest) (s0 :: srest) c =
      if byteMatches c e0 s0 then matchStepF f (e0 :: erest) srest c
      else some (some false) := by
  rw [smGoF]
  simp

theorem smbF_lit (f : Nat) (p0 : Nat) (prest : List Nat) (s0 : Nat)
    (srest : List Nat) (c : Case) (h1 : p0 ≠ 42) (h2 : p0 ≠ 63)
    (h3 : p0 ≠ 91) (h4 : ¬(p0 = 92 ∧ prest ≠ [])) :
    smGoF (f + 1) (p0 :: prest) (s0 :: srest) c =
      if byteMatches c p0 s0 then matchStepF f (p0 :: prest) srest c
      else some (some false) := by
  rw [smGoF]
  rw [if_neg h1, if_neg h2, if_neg h3, if_neg h4]

theorem msF_nil_subject (f : Nat) (p : List Nat) (c : Case) :
    matchStepF f p [] c = some (some (decide (dropStars p.tail = []))) := by
  rw [matchStepF]

theorem msF_nil (f : Nat) (s0 : Nat) (srest : List Nat) (c : Case) :
    matchStepF f [] (s0 :: srest) c = some (some false) := by
  rw [matchStepF]

theorem msF_single (f : Nat) (p0 s0 : Nat) (srest : List Nat) (c : Case) :
    matchStepF f [p0] (s0 :: srest) c = some (some false) := by
  rw [matchStepF]

theorem msF_cons (f : Nat) (p0 p1 : Nat) (p1rest : List Nat) (s0 : Nat)
    (srest : List Nat) (c : Case) :
    matchStepF f (p0 :: p1 :: p1rest) (s0 :: srest) c =
      smGoF f (p1 :: p1rest) (s0 :: srest) c := by
  rw [matchStepF]

theorem slF_nil (f : Nat) (d : List Nat) (c : Case) :
    starLoopF f d [] c = some (some false) := by
  rw [starLoopF]

theorem slF_cons (f : Nat) (d : List Nat) (s0 : Nat) (srest : List Nat)
    (c : Case) : starLoopF f d (s0 :: srest) c =
      match smGoF f d (s0 :: srest) c with
      | none => none
      | some none => some none
      | some (some true) => some (some true)
      | some (some false) => starLoopF f d srest c := by
  rw [starLoopF]

theorem bcF_nil (f : Nat) (s0 : Nat) (srest : List Nat) (c : Case) :
    bracketCaseF f [] s0 srest c = some none := by
  rw [bracketCaseF]

theorem bcF_cons (f : Nat) (q0 : Nat) (qrest : List Nat) (s0 : Nat)
    (srest : List Nat) (c : Case) :
    bracketCaseF f (q0 :: qrest) s0 srest c =
      if (bracketClass q0 qrest s0 c).1 then
        matchStepF f (bracketClass q0 qrest s0 c).2 srest c
      else some (some false) := by
  rw [bracketCaseF]

theorem matchStepF_spec (f : Nat)
    (ih : ∀ (p s : List Nat) (c : Case), p.length < f →
      smGoF f p s c = some (stringmatch_bytes p s c))
    (x : List Nat) (hx : x.length ≤ f) (s : List Nat) (c : Case) :
    matchStepF f x s c = some (matchStep x s c) := by
  cases s with
  | nil => rw [msF_nil_subject, ms_nil_subject]
  | cons s0 srest =>
      cases x with
      | nil => rw [msF_nil, ms_nil]
      | cons x0 xrest =>
          cases xrest with
          | nil => rw [msF_single, ms_single]
          | cons x1 x2 =>
              rw [msF_cons, ms_cons]
              exact ih (x1 :: x2) (s0 :: srest) c (by simp at hx ⊢; omega)

theorem starLoopF_spec (f : Nat)
    (ih : ∀ (p s : List Nat) (c : Case), p.length < f →
      smGoF f p s c = some (stringmatch_bytes p s c))
    (d : List Nat) (hd : d.length < f) (c : Case) : ∀ (s : List Nat),
    starLoopF f d s c = some (starLoop d s c) := by
  intro s
  induction s with
  | nil => rw [slF_nil, sl_nil]
  | cons s0 srest ihs =>
      rw [slF_cons, sl_cons, ih d (s0 :: srest) c hd]
      cases hh : stringmatch_bytes d (s0 :: srest) c with
      | none => rfl
      | some b => cases b <;> simp [ihs]

theorem bracketCaseF_spec (f : Nat)
    (ih : ∀ (p s : List Nat) (c : Case), p.length < f →
      smGoF f p s c = some (stringmatch_bytes p s c))
    (prest : List Nat) (hp : prest.length ≤ f) (s0 : Nat) (srest : List Nat)
    (c : Case) : bracketCaseF f prest s0 srest c =
      some (bracketCase prest s0 srest c) := by
  cases prest with
  | nil => rw [bcF_nil, bc_nil]
  | cons q0 qrest =>
      rw [bcF_cons, bc_cons]
      by_cases hflag : (bracketClass q0 qrest s0 c).1
      · rw [if_pos hflag, if_pos hflag]
        refine matchStepF_spec f ih _ ?_ srest c
        have := bracketClass_snd_length_le q0 qrest s0 c
        simp at hp
        omega
      · rw [if_neg hflag, if_neg hflag]

/-- Claim C10: the matcher terminates on every input, and its recursion
is well-founded on pattern length: running the fuel-bounded evaluator
with any fuel exceeding the pattern length never exhausts the fuel and
computes exactly the matcher result.  Every loop iteration and every
star-branch recursion strictly shortens the pattern, which is why
pattern length bounds the recursion depth. -/
theorem c10_terminates_fuel_pattern_length : ∀ (f : Nat) (p s : List Nat)
    (c : Case), p.length < f →
    smGoF f p s c = some (stringmatch_bytes p s c) := by
  intro f
  induction f with
  | zero =>
      intro p s c hp
      simp at hp
  | succ f ih =>
      intro p s c hp
      cases p with
      | nil => rw [smbF_nil, smb_nil]
      | cons p0 prest =>
          cases s with
          | nil => rw [smbF_cons_nil, smb_cons_nil]
          | cons s0 srest =>
              simp only [List.length_cons] at hp
              by_cases h42 : p0 = 42
              · subst h42
                rw [smbF_star, smb_star]
                by_cases hq : (starCollapse (42 :: prest)).length = 1
                · rw [if_pos hq, if_pos hq]
                · rw [if_neg hq, if_neg hq]
                  refine starLoopF_spec f ih _ ?_ c (s0 :: srest)
                  have ht := List.length_tail (starCollapse (42 :: prest))
                  have hlen := starCollapse_length_le (42 :: prest)
                  simp only [List.length_cons] at hlen
                  omega
              · by_cases h63 : p0 = 63
                · subst h63
                  rw [smbF_qmark, smb_qmark]
                  exact matchStepF_spec f ih (63 :: prest)
                    (by simp; omega) srest c
                · by_cases h91 : p0 = 91
                  · subst h91
                    rw [smbF_bracket, smb_bracket]
                    exact bracketCaseF_spec f ih prest (by omega) s0 srest c
                  · by_cases h92 : p0 = 92 ∧ prest ≠ []
                    · obtain ⟨h92a, h92b⟩ := h92
                      subst h92a
                      cases prest with
                      | nil => exact absurd rfl h92b
                      | cons e0 erest =>
                          rw [smbF_esc, smb_esc]
                          by_cases hb : byteMatches c e0 s0
                          · rw [if_pos hb, if_pos hb]
                            exact matchStepF_spec f ih (e0 :: erest)
                              (by simp at hp ⊢; omega) srest c
                          · rw [if_neg hb, if_neg hb]
                    · rw [smbF_lit f p0 prest s0 srest c h42 h63 h91 h92]
                      rw [smb_lit p0 prest s0 srest c h42 h63 h91 h92]
                      by_cases hb : byteMatches c p0 s0
                      · rw [if_pos hb, if_pos hb]
                        exact matchStepF_spec f ih (p0 :: prest)
                          (by simp; omega) srest c
                      · rw [if_neg hb, if_neg hb]

/-- Witness for C10: with fuel 2, enough for the one-byte question-mark
pattern, the evaluator returns the matcher result on the subject 97. -/
theorem c10_terminates_fuel_pattern_length_witness :
    smGoF 2 [63] [97] Case.Sensitive =
      some (stringmatch_bytes [63] [97] Case.Sensitive) :=
  c10_terminates_fuel_pattern_length 2 [63] [97] Case.Sensitive (by decide)

end Moenster
